import Mathlib

/-!
Verification of `graphdot/linalg/low_rank.py`: a shallow embedding of the
low-rank matrix algebra (classes `Sum`, `LATR`, `LLT` and the free functions
`dot`, `add`, `sub`, `matmul`) over exact rationals, together with proofs of
the specified properties.

Dense numpy arrays are embedded as `DMat` (a shape plus a total entry
function); fallible numpy operations return `Except String`.  The singular
value decomposition performed by `np.linalg.svd` inside `LLT.__init__` is
external library code, so the constructor is embedded as receiving the
decomposition `(U, S)` of its dense argument; every other step of the
constructor is translated directly from the source.
-/

namespace LowRank

/-- A dense two-dimensional numpy array over exact rationals: a shape plus a
total entry function (values outside the shape are unobservable junk). -/
structure DMat where
  rows : ℕ
  cols : ℕ
  entry : ℕ → ℕ → ℚ

theorem DMat.ext_of (A B : DMat) (hr : A.rows = B.rows) (hc : A.cols = B.cols)
    (he : A.entry = B.entry) : A = B := by
  cases A; cases B; simp_all

/-- Unchecked matrix product: the arithmetic of the numpy `@` operator,
summing over the column range of the left operand. -/
def mulM (A B : DMat) : DMat :=
  ⟨A.rows, B.cols, fun i j => ∑ t ∈ Finset.range A.cols, A.entry i t * B.entry t j⟩

/-- Elementwise sum, taking the shape of the left operand. -/
def addM (A B : DMat) : DMat :=
  ⟨A.rows, A.cols, fun i j => A.entry i j + B.entry i j⟩

/-- Elementwise negation (numpy unary minus). -/
def negM (A : DMat) : DMat :=
  ⟨A.rows, A.cols, fun i j => -A.entry i j⟩

/-- Transpose (numpy `.T`). -/
def trM (A : DMat) : DMat :=
  ⟨A.cols, A.rows, fun i j => A.entry j i⟩

/-- numpy `@` on 2-D arrays: raises a generic dimension error on an
inner-dimension mismatch; the message does not name the operand pair. -/
def npMatmul (A B : DMat) : Except String DMat :=
  if A.cols = B.rows then .ok (mulM A B)
  else .error ("matmul: input operand has a mismatch in its core dimension")

theorem mulM_assoc (A B C : DMat) : mulM (mulM A B) C = mulM A (mulM B C) := by
  refine DMat.ext_of _ _ rfl rfl ?_
  funext i j
  simp only [mulM, Finset.sum_mul, Finset.mul_sum, mul_assoc]
  exact Finset.sum_comm

@[simp] theorem bindOk {α β : Type} (a : α) (f : α → Except String β) :
    (Except.ok a : Except String α) >>= f = f a := rfl

@[simp] theorem bindErr {α β : Type} (e : String) (f : α → Except String β) :
    (Except.error e : Except String α) >>= f = Except.error e := rfl

@[simp] theorem mapOk {α β : Type} (f : α → β) (a : α) :
    Except.map f (Except.ok a : Except String α) = .ok (f a) := rfl

@[simp] theorem mapErr {α β : Type} (f : α → β) (e : String) :
    Except.map f (Except.error e : Except String α) = .error e := rfl

/-- The runtime objects of the module: `latr` is an instance of class `LATR`
(generic factor approximation `lhs @ rhs`), `llt` an instance of class `LLT`
(spectral factor approximation, storing the eigenvector matrix `U` and the
eigenvalue vector `S`, read on `[0, U.cols)`), `sum` an instance of class
`Sum` (a list of summed factors), and `arr` a plain dense ndarray. -/
inductive Obj : Type where
  | latr (lhs rhs : DMat)
  | llt (U : DMat) (S : ℕ → ℚ)
  | sum (factors : List Obj)
  | arr (A : DMat)

/-- The stored factor `LLT._lhs = self.U * self.S` (numpy broadcasting scales column `j` of `U`
by `S j`). -/
def lltLhs (U : DMat) (S : ℕ → ℚ) : DMat :=
  ⟨U.rows, U.cols, fun i j => U.entry i j * S j⟩

/-- Attribute access `X.lhs`: the stored factor for `LATR`, the property
`self._lhs = self.U * self.S` for `LLT`; an `AttributeError` otherwise. -/
def getLhs : Obj → Except String DMat
  | .latr l _ => .ok l
  | .llt U S => .ok (lltLhs U S)
  | _ => .error ("AttributeError: object has no attribute lhs")

/-- Attribute access `X.rhs`: the stored factor for `LATR`, the property
`self._lhs.T` for `LLT`; an `AttributeError` otherwise. -/
def getRhs : Obj → Except String DMat
  | .latr _ r => .ok r
  | .llt U S => .ok (trM (lltLhs U S))
  | _ => .error ("AttributeError: object has no attribute rhs")

mutual
/-- Well-formedness of an object as a representation of an `m`-by-`n`
matrix: factor shapes conform (`lhs.cols = rhs.rows` inside a `LATR`), a
`Sum` is a nonempty list of conforming representations, and a plain ndarray
is not a representation. -/
def wfB : Obj → ℕ → ℕ → Bool
  | .latr l r, m, n => l.rows == m && l.cols == r.rows && r.cols == n
  | .llt U _, m, n => U.rows == m && m == n
  | .sum fs, m, n => !fs.isEmpty && wfList fs m n
  | .arr _, _, _ => false

/-- Well-formedness of every member of a factor list. -/
def wfList : List Obj → ℕ → ℕ → Bool
  | [], _, _ => true
  | f :: fs, m, n => wfB f m n && wfList fs m n
end

mutual
/-- Mathematical value of an object as a dense matrix, used to state
correctness (the shape of an empty `Sum` is junk). -/
def val : Obj → DMat
  | .latr l r => mulM l r
  | .llt U S => mulM (lltLhs U S) (trM (lltLhs U S))
  | .sum fs => sumVal fs
  | .arr A => A

/-- Elementwise sum of the values of a factor list. -/
def sumVal : List Obj → DMat
  | [] => ⟨0, 0, fun _ _ => 0⟩
  | [f] => val f
  | f :: fs => addM (val f) (sumVal fs)
end

mutual
/-- Python unary minus on the objects: `LATR.__neg__` returns
`LATR(-self.lhs, self.rhs)` (class `LLT` defines no `__neg__`, so negating
an `LLT` goes through the inherited `LATR.__neg__` and yields a plain
`LATR` built from its lhs/rhs properties); `Sum.__neg__` negates each
factor; a plain ndarray negates elementwise. -/
def negO : Obj → Obj
  | .latr l r => .latr (negM l) r
  | .llt U S => .latr (negM (lltLhs U S)) (trM (lltLhs U S))
  | .sum fs => .sum (negList fs)
  | .arr A => .arr (negM A)

/-- The comprehension `[-f for f in fs]`. -/
def negList : List Obj → List Obj
  | [] => []
  | f :: fs => negO f :: negList fs
end

/-- Python `A.factors if isinstance(A, Sum) else [A]`. -/
def factorsOf : Obj → List Obj
  | .sum fs => fs
  | o => [o]

/-- The value returned by `add(A, B)`: a `Sum` whose factors are the
concatenated factor lists of the operands.  (This captures the returned
content of the returned object; the in-place effect of the aliased `factors += ...` on a
`Sum` operand is modelled separately by `addPy`.) -/
def addPure (A B : Obj) : Obj := .sum (factorsOf A ++ factorsOf B)

/-- The value returned by `sub(A, B)`: as `add`, with the factors of the right
operand negated first. -/
def subPure (A B : Obj) : Obj := .sum (factorsOf A ++ negList (factorsOf B))

/-- The non-`Sum` branches of `matmul`: `LATR(A.lhs, (A.rhs @ B.lhs) @
B.rhs)` when `B` is a factor approximation (class `LATR` or its subclass
`LLT`), and the plain dense result `A.lhs @ (A.rhs @ B)` when `B` is a
dense ndarray.  Attribute access on `A` fails when `A` is itself a dense
ndarray. -/
def mmBase (A B : Obj) : Except String Obj :=
  match B with
  | .latr lb rb => do
    let la ← getLhs A
    let ra ← getRhs A
    let m1 ← npMatmul ra lb
    let m2 ← npMatmul m1 rb
    .ok (.latr la m2)
  | .llt U S => do
    let la ← getLhs A
    let ra ← getRhs A
    let m1 ← npMatmul ra (lltLhs U S)
    let m2 ← npMatmul m1 (trM (lltLhs U S))
    .ok (.latr la m2)
  | .arr X => do
    let la ← getLhs A
    let ra ← getRhs A
    let m1 ← npMatmul ra X
    let m2 ← npMatmul la m1
    .ok (.arr m2)
  | .sum _ => .error ("unreachable: mmBase is only applied to non-Sum right operands")

mutual
/-- Python `matmul(A, B)`, dispatching on the runtime classes of both operands
exactly as the source does: `Sum @ Sum` is the list of pairwise products,
`Sum @ X` and `A @ Sum` map over the factor list, and the non-`Sum` cases
are `mmBase`.  The list comprehensions evaluate left to right, so the first
failing elementwise product aborts with its error. -/
def matmul : Obj → Obj → Except String Obj
  | .sum fs, .sum gs => Except.map Obj.sum (mmRows fs gs)
  | .sum fs, .latr lb rb => Except.map Obj.sum (mmCols fs (.latr lb rb))
  | .sum fs, .llt U S => Except.map Obj.sum (mmCols fs (.llt U S))
  | .sum fs, .arr X => Except.map Obj.sum (mmCols fs (.arr X))
  | .latr la ra, .sum gs => Except.map Obj.sum (mmOne (.latr la ra) gs)
  | .llt U S, .sum gs => Except.map Obj.sum (mmOne (.llt U S) gs)
  | .arr X, .sum gs => Except.map Obj.sum (mmOne (.arr X) gs)
  | A, B => mmBase A B

/-- The comprehension `[a @ b for a in fs for b in gs]`. -/
def mmRows : List Obj → List Obj → Except String (List Obj)
  | [], _ => .ok []
  | f :: fs, gs => do
    let xs ← mmOne f gs
    let ys ← mmRows fs gs
    .ok (xs ++ ys)

/-- The comprehension `[a @ B for a in fs]`. -/
def mmCols : List Obj → Obj → Except String (List Obj)
  | [], _ => .ok []
  | f :: fs, B => do
    let x ← matmul f B
    let xs ← mmCols fs B
    .ok (x :: xs)

/-- The comprehension `[A @ b for b in gs]`. -/
def mmOne : Obj → List Obj → Except String (List Obj)
  | _, [] => .ok []
  | A, g :: gs => do
    let x ← matmul A g
    let xs ← mmOne A gs
    .ok (x :: xs)
end

/-- numpy `np.sum(list_of_2d_arrays, axis=0)`: elementwise sum; raises when
the list is empty or the shapes disagree. -/
def npSumList : List DMat → Except String DMat
  | [] => .error ("zero-size array to reduction operation add which has no identity")
  | d :: ds =>
    if ds.all (fun e => e.rows == d.rows && e.cols == d.cols) then
      .ok ⟨d.rows, d.cols, fun i j => ((d :: ds).map (fun e => e.entry i j)).sum⟩
    else .error ("operands could not be broadcast together")

mutual
/-- Method `todense`: `lhs @ rhs` for `LATR`, `lhs @ lhs.T` for `LLT`, the
elementwise sum of the dense forms of the factors for `Sum`; a plain ndarray has
no such attribute. -/
def todense : Obj → Except String DMat
  | .latr l r => npMatmul l r
  | .llt U S => npMatmul (lltLhs U S) (trM (lltLhs U S))
  | .sum fs => do
    let ds ← todenseList fs
    npSumList ds
  | .arr _ => .error ("AttributeError: ndarray object has no attribute todense")

/-- The comprehension `[f.todense() for f in fs]`. -/
def todenseList : List Obj → Except String (List DMat)
  | [] => .ok []
  | f :: fs => do
    let d ← todense f
    let ds ← todenseList fs
    .ok (d :: ds)
end

/-- A dense one-dimensional numpy array. -/
structure DVec where
  len : ℕ
  entry : ℕ → ℚ

/-- Reduction `v.sum()` on a 1-D array. -/
def vsum (v : DVec) : ℚ := ∑ i ∈ Finset.range v.len, v.entry i

/-- numpy `np.sum(list_of_1d_arrays, axis=0)`. -/
def npSumVecs : List DVec → Except String DVec
  | [] => .error ("zero-size array to reduction operation add which has no identity")
  | v :: vs =>
    if vs.all (fun w => w.len == v.len) then
      .ok ⟨v.len, fun i => ((v :: vs).map (fun w => w.entry i)).sum⟩
    else .error ("operands could not be broadcast together")

mutual
/-- Method `diagonal()`: `np.sum(self.lhs * self.rhs.T, axis=1)` for `LATR` (the
elementwise product needs conforming shapes), the overridden
`np.sum(self.lhs**2, axis=1)` for `LLT`, and the elementwise sum of the
diagonals of the factors for `Sum`. -/
def diagO : Obj → Except String DVec
  | .latr l r =>
    if l.rows == r.cols && l.cols == r.rows then
      .ok ⟨l.rows, fun i => ∑ j ∈ Finset.range l.cols, l.entry i j * r.entry j i⟩
    else .error ("operands could not be broadcast together")
  | .llt U S =>
    .ok ⟨U.rows, fun i => ∑ j ∈ Finset.range U.cols, (U.entry i j * S j) ^ 2⟩
  | .sum fs => do
    let vs ← diagList fs
    npSumVecs vs
  | .arr _ => .error ("AttributeError: ndarray object has no attribute diagonal")

/-- The comprehension `[f.diagonal() for f in fs]`. -/
def diagList : List Obj → Except String (List DVec)
  | [] => .ok []
  | f :: fs => do
    let v ← diagO f
    let vs ← diagList fs
    .ok (v :: vs)
end

/-- Method `trace()`: `self.diagonal().sum()` for `LATR` and (through the
overridden diagonal) for `LLT`; `Sum.trace` sums the per-factor
`diagonal().sum()` scalars, so no shape conformity between factors is
required there. -/
def traceO : Obj → Except String ℚ
  | .latr l r => Except.map vsum (diagO (.latr l r))
  | .llt U S => Except.map vsum (diagO (.llt U S))
  | .sum fs => Except.map (fun vs => (vs.map vsum).sum) (diagList fs)
  | .arr _ => .error ("AttributeError: ndarray object has no attribute trace")

mutual
/-- Method `quadratic(a, b)`: `(a @ self.lhs) @ (self.rhs @ b)` for a factor
approximation, and the elementwise sum of per-factor results for `Sum`. -/
def quadO : Obj → DMat → DMat → Except String DMat
  | .latr l r, a, b => do
    let m1 ← npMatmul a l
    let m2 ← npMatmul r b
    npMatmul m1 m2
  | .llt U S, a, b => do
    let m1 ← npMatmul a (lltLhs U S)
    let m2 ← npMatmul (trM (lltLhs U S)) b
    npMatmul m1 m2
  | .sum fs, a, b => do
    let ds ← quadList fs a b
    npSumList ds
  | .arr _, _, _ => .error ("AttributeError: ndarray object has no attribute quadratic")

/-- The comprehension `[f.quadratic(a, b) for f in fs]`. -/
def quadList : List Obj → DMat → DMat → Except String (List DMat)
  | [], _, _ => .ok []
  | f :: fs, a, b => do
    let d ← quadO f a b
    let ds ← quadList fs a b
    .ok (d :: ds)
end

/-- The constructor argument of `LLT.__init__`: either a dense ndarray
(represented by the `(U, S)` pair that `np.linalg.svd` returns for it,
since the decomposition itself is external numpy code) or a pre-computed
`(U, S)` tuple. -/
inductive LLTArg : Type where
  | dense (U : DMat) (S : ℕ → ℚ)
  | pair (U : DMat) (S : ℕ → ℚ)

/-- numpy `S.max()` over a list of scalars (the caller raises on an empty
list before using this). -/
def listMax : List ℚ → ℚ
  | [] => 0
  | [x] => x
  | x :: xs => max x (listMax xs)

/-- The singular values as a list, `[S 0, ..., S (k-1)]`. -/
def svals (S : ℕ → ℚ) (k : ℕ) : List ℚ := (List.range k).map S

/-- Constructor `LLT.__init__(X, rcond, mode)`.  Dense branch: `beta = S.max() * rcond`
(numpy raises on an empty spectrum); `truncate` keeps the columns with
`S >= beta`; `clamp` floors every eigenvalue at `beta`; any other mode
raises `RuntimeError` naming the mode.  Tuple branch: `U` and `S` are
stored as given and `rcond` and `mode` are never read. -/
def lltInit : LLTArg → ℚ → String → Except String Obj
  | .dense U S, rcond, mode =>
    if U.cols = 0 then
      .error ("zero-size array to reduction operation maximum which has no identity")
    else
      let beta := listMax (svals S U.cols) * rcond
      if mode = "truncate" then
        let mask := (List.range U.cols).filter (fun j => decide (beta ≤ S j))
        .ok (.llt ⟨U.rows, mask.length, fun i j => U.entry i (mask.getD j 0)⟩
          (fun j => S (mask.getD j 0)))
      else if mode = "clamp" then
        .ok (.llt U (fun j => max (S j) beta))
      else
        .error ("Unknown spectral approximation mode " ++ mode ++ ".")
  | .pair U S, _, _ => .ok (.llt U S)

/-- The factory `dot(X)` (the `Y is None` branch): `LLT(X, rcond=rcond,
mode=mode)`, with `(U, S)` the singular value decomposition of `X`. -/
def dotLLT (U : DMat) (S : ℕ → ℚ) (rcond : ℚ) (mode : String) : Except String Obj :=
  lltInit (.dense U S) rcond mode

/-- The factory `dot(X, Y)` (the two-argument branch): `LATR(X, Y)`. -/
def dotLATR (X Y : DMat) : Obj := .latr X Y

/-- Method `LLT.pinv`: `LLT((self.U, 1 / self.S))` — the tuple branch of the
constructor with the default `rcond=0, mode="truncate"`. -/
def pinvO : Obj → Except String Obj
  | .llt U S => lltInit (.pair U (fun j => 1 / S j)) 0 "truncate"
  | _ => .error ("AttributeError: object has no attribute pinv")

/-- Method `LLT.__pow__`: `LLT((self.U, self.S ** exp))` — the tuple branch of the
constructor with the default `rcond=0, mode="truncate"` (integer exponents
keep the embedding inside the rationals). -/
def powO : Obj → ℤ → Except String Obj
  | .llt U S, e => lltInit (.pair U (fun j => S j ^ e)) 0 "truncate"
  | _, _ => .error ("AttributeError: object has no attribute pow")

/-- The mutable heap of Python list objects: the contents of each list by
id, plus the next fresh id. -/
structure PyState where
  heap : ℕ → List Obj
  next : ℕ

/-- A top-level operand as the running program sees it: a `Sum` instance
holds a reference to its mutable `factors` list; any other object is an
immutable leaf. -/
inductive PyVal : Type where
  | leaf (o : Obj)
  | sumRef (r : ℕ)

/-- Function `add(A, B)` with Python reference semantics, statement by statement:
`factors = A.factors if isinstance(A, Sum) else [A]` binds `factors` to
the list object owned by A when A is a `Sum` (a fresh singleton list otherwise);
`factors += ...` then extends that list object in place; `Sum(factors)`
wraps the same list.  The returned value is paired with the updated heap. -/
def addPy (A B : PyVal) (s : PyState) : PyVal × PyState :=
  let ref_s1 : ℕ × PyState :=
    match A with
    | .sumRef ra => (ra, s)
    | .leaf a =>
      (s.next, ⟨fun i => if i = s.next then [a] else s.heap i, s.next + 1⟩)
  let r := ref_s1.1
  let s1 := ref_s1.2
  let bs : List Obj :=
    match B with
    | .sumRef rb => s1.heap rb
    | .leaf b => [b]
  let s2 : PyState := ⟨fun i => if i = r then s1.heap r ++ bs else s1.heap i, s1.next⟩
  (.sumRef r, s2)

/-- Abstract syntax of an arbitrary composition of the three binary algebra
operations over given starting objects. -/
inductive Expr : Type where
  | leaf (o : Obj)
  | eadd (a b : Expr)
  | esub (a b : Expr)
  | emul (a b : Expr)

/-- A factor-approximation leaf: an instance of `LATR` or `LLT`. -/
def isLeafB : Obj → Bool
  | .latr _ _ => true
  | .llt _ _ => true
  | _ => false

/-- Flatness: a `Sum` whose factors are all `LATR`/`LLT` leaves, or a bare
leaf; plain ndarrays and nested `Sum`s are not flat. -/
def flatB : Obj → Bool
  | .sum fs => fs.all isLeafB
  | .latr _ _ => true
  | .llt _ _ => true
  | .arr _ => false

/-- All starting objects of a composition are `LATR`/`LLT` leaves (as built
by the factory `dot`). -/
def leavesOk : Expr → Bool
  | .leaf o => isLeafB o
  | .eadd a b => leavesOk a && leavesOk b
  | .esub a b => leavesOk a && leavesOk b
  | .emul a b => leavesOk a && leavesOk b

/-- Evaluate a composition with the operations of the module (the value of each
intermediate result; `matmul` may raise). -/
def evalE : Expr → Except String Obj
  | .leaf o => .ok o
  | .eadd a b => do
    let x ← evalE a
    let y ← evalE b
    .ok (addPure x y)
  | .esub a b => do
    let x ← evalE a
    let y ← evalE b
    .ok (subPure x y)
  | .emul a b => do
    let x ← evalE a
    let y ← evalE b
    matmul x y

/-! ### Basic lemmas about values and well-formedness -/

theorem sumVal_cons_rows (f : Obj) (fs : List Obj) :
    (sumVal (f :: fs)).rows = (val f).rows := by
  cases fs <;> rfl

theorem sumVal_cons_cols (f : Obj) (fs : List Obj) :
    (sumVal (f :: fs)).cols = (val f).cols := by
  cases fs <;> rfl

theorem sumVal_entry : ∀ (fs : List Obj) (i j : ℕ),
    (sumVal fs).entry i j = (fs.map (fun f => (val f).entry i j)).sum := by
  intro fs
  induction fs with
  | nil => intro i j; simp [sumVal]
  | cons f fs ih =>
    intro i j
    cases fs with
    | nil => simp [sumVal]
    | cons g t =>
      show (addM (val f) (sumVal (g :: t))).entry i j = _
      simp only [addM, List.map_cons, List.sum_cons]
      rw [ih i j]
      simp

theorem wfB_latr {l r : DMat} {m n : ℕ} :
    wfB (.latr l r) m n = true ↔ l.rows = m ∧ l.cols = r.rows ∧ r.cols = n := by
  simp [wfB, and_assoc]

theorem wfB_llt {U : DMat} {S : ℕ → ℚ} {m n : ℕ} :
    wfB (.llt U S) m n = true ↔ U.rows = m ∧ m = n := by
  simp [wfB]

theorem wfB_sum {fs : List Obj} {m n : ℕ} :
    wfB (.sum fs) m n = true ↔ fs ≠ [] ∧ wfList fs m n = true := by
  simp [wfB]

theorem wfB_arr {A : DMat} {m n : ℕ} : wfB (.arr A) m n = false := rfl

theorem wfList_iff : ∀ {fs : List Obj} {m n : ℕ},
    wfList fs m n = true ↔ ∀ f ∈ fs, wfB f m n = true := by
  intro fs m n
  induction fs with
  | nil => simp [wfList]
  | cons f fs ih => simp [wfList, ih]

theorem val_dims : ∀ (N : ℕ) (o : Obj), sizeOf o ≤ N → ∀ m n : ℕ,
    wfB o m n = true → (val o).rows = m ∧ (val o).cols = n := by
  intro N
  induction N with
  | zero =>
    intro o h
    exfalso
    cases o <;> simp at h
  | succ N ih =>
    intro o hsz m n hwf
    cases o with
    | latr l r =>
      obtain ⟨h1, h2, h3⟩ := wfB_latr.mp hwf
      exact ⟨h1, h3⟩
    | llt U S =>
      obtain ⟨h1, h2⟩ := wfB_llt.mp hwf
      refine ⟨h1, ?_⟩
      show (lltLhs U S).rows = n
      rw [show (lltLhs U S).rows = U.rows from rfl, h1, h2]
    | arr A => simp [wfB] at hwf
    | sum fs =>
      obtain ⟨hne, hlist⟩ := wfB_sum.mp hwf
      cases fs with
      | nil => exact absurd rfl hne
      | cons f t =>
        have hf : wfB f m n = true := (wfList_iff.mp hlist) f (by simp)
        have hfsz : sizeOf f ≤ N := by
          have := List.sizeOf_lt_of_mem (show f ∈ f :: t by simp)
          simp at hsz
          omega
        have := ih f hfsz m n hf
        constructor
        · show (sumVal (f :: t)).rows = m
          rw [sumVal_cons_rows, this.1]
        · show (sumVal (f :: t)).cols = n
          rw [sumVal_cons_cols, this.2]

theorem val_dims_of_wf {o : Obj} {m n : ℕ} (h : wfB o m n = true) :
    (val o).rows = m ∧ (val o).cols = n :=
  val_dims (sizeOf o) o le_rfl m n h

theorem todense_wf : ∀ (N : ℕ) (o : Obj), sizeOf o ≤ N → ∀ m n : ℕ,
    wfB o m n = true → todense o = .ok (val o) := by
  intro N
  induction N with
  | zero =>
    intro o h
    exfalso
    cases o <;> simp at h
  | succ N ih =>
    intro o hsz m n hwf
    cases o with
    | latr l r =>
      obtain ⟨h1, h2, h3⟩ := wfB_latr.mp hwf
      simp [todense, npMatmul, h2, val]
    | llt U S =>
      show npMatmul (lltLhs U S) (trM (lltLhs U S)) = _
      simp [npMatmul, trM, val]
    | arr A => simp [wfB] at hwf
    | sum fs =>
      obtain ⟨hne, hlist⟩ := wfB_sum.mp hwf
      have hw := wfList_iff.mp hlist
      have hs : ∀ f ∈ fs, sizeOf f ≤ N := by
        intro f hf
        have := List.sizeOf_lt_of_mem hf
        simp at hsz
        omega
      have key : ∀ (l : List Obj), (∀ f ∈ l, sizeOf f ≤ N) →
          (∀ f ∈ l, wfB f m n = true) → todenseList l = .ok (l.map val) := by
        intro l
        induction l with
        | nil => intro _ _; rfl
        | cons f t iht =>
          intro h1 h2
          have hf : todense f = .ok (val f) := ih f (h1 f (by simp)) m n (h2 f (by simp))
          have ht := iht (fun g hg => h1 g (by simp [hg])) (fun g hg => h2 g (by simp [hg]))
          simp [todenseList, hf, ht]
      cases fs with
      | nil => exact absurd rfl hne
      | cons f t =>
        show (do
          let ds ← todenseList (f :: t)
          npSumList ds) = .ok (val (.sum (f :: t)))
        rw [key (f :: t) hs hw]
        simp only [bindOk]
        have hguard : (List.map val t).all
            (fun e => e.rows == (val f).rows && e.cols == (val f).cols) = true := by
          simp only [List.all_eq_true]
          intro e he
          obtain ⟨g, hg, rfl⟩ := List.mem_map.mp he
          obtain ⟨hr, hc⟩ := val_dims_of_wf (hw g (by simp [hg]))
          obtain ⟨hr2, hc2⟩ := val_dims_of_wf (hw f (by simp))
          simp [hr, hc, hr2, hc2]
        show npSumList (val f :: List.map val t) = _
        simp only [npSumList, hguard, if_true]
        refine congrArg Except.ok ?_
        refine DMat.ext_of _ _ ?_ ?_ ?_
        · show (val f).rows = (val (.sum (f :: t))).rows
          rw [show val (.sum (f :: t)) = sumVal (f :: t) from rfl, sumVal_cons_rows]
        · show (val f).cols = (val (.sum (f :: t))).cols
          rw [show val (.sum (f :: t)) = sumVal (f :: t) from rfl, sumVal_cons_cols]
        · funext i j
          show ((val f :: List.map val t).map (fun e => e.entry i j)).sum = _
          rw [show val (.sum (f :: t)) = sumVal (f :: t) from rfl, sumVal_entry]
          simp [List.map_map]
          rfl

theorem todense_of_wf {o : Obj} {m n : ℕ} (h : wfB o m n = true) :
    todense o = .ok (val o) :=
  todense_wf (sizeOf o) o le_rfl m n h

/-- The lhs/rhs pair through which a non-`Sum`, non-ndarray object enters
the factor-product branch of `matmul`. -/
def fview : Obj → Option (DMat × DMat)
  | .latr l r => some (l, r)
  | .llt U S => some (lltLhs U S, trM (lltLhs U S))
  | _ => none

theorem fview_getters {A : Obj} {L R : DMat} (h : fview A = some (L, R)) :
    getLhs A = .ok L ∧ getRhs A = .ok R ∧ val A = mulM L R := by
  cases A <;> simp [fview] at h
  · obtain ⟨h1, h2⟩ := h
    subst h1; subst h2
    exact ⟨rfl, rfl, rfl⟩
  · obtain ⟨h1, h2⟩ := h
    subst h1; subst h2
    exact ⟨rfl, rfl, rfl⟩

theorem fview_dims {A : Obj} {L R : DMat} {m n : ℕ} (hwf : wfB A m n = true)
    (h : fview A = some (L, R)) :
    L.rows = m ∧ L.cols = R.rows ∧ R.cols = n := by
  cases A with
  | latr l r =>
    simp [fview] at h
    obtain ⟨h1, h2⟩ := h
    subst h1; subst h2
    exact wfB_latr.mp hwf
  | llt U S =>
    simp [fview] at h
    obtain ⟨h1, h2⟩ := h
    subst h1; subst h2
    obtain ⟨h1, h2⟩ := wfB_llt.mp hwf
    refine ⟨h1, rfl, ?_⟩
    show U.rows = n
    rw [h1, h2]
  | sum fs => simp [fview] at h
  | arr A => simp [fview] at h

theorem mmBase_spec {A B : Obj} {LA RA LB RB : DMat}
    (hfa : fview A = some (LA, RA)) (hfb : fview B = some (LB, RB))
    (hg1 : RA.cols = LB.rows) (hg2 : LB.cols = RB.rows) :
    mmBase A B = .ok (.latr LA (mulM (mulM RA LB) RB)) := by
  obtain ⟨hl, hr, _⟩ := fview_getters hfa
  cases B with
  | latr lb rb =>
    simp [fview] at hfb
    obtain ⟨h1, h2⟩ := hfb
    subst h1; subst h2
    simp [mmBase, hl, hr, npMatmul, hg1, hg2, mulM]
  | llt U S =>
    simp [fview] at hfb
    obtain ⟨h1, h2⟩ := hfb
    subst h1; subst h2
    simp [mmBase, hl, hr, npMatmul, hg1, hg2, mulM]
  | sum gs => simp [fview] at hfb
  | arr X => simp [fview] at hfb

theorem map_eq_of_forall₂ {α β γ : Type} {R : α → β → Prop} {fs : List α}
    {cs : List β} (H : List.Forall₂ R fs cs) (g : β → γ) (h : α → γ)
    (hg : ∀ f c, R f c → g c = h f) : cs.map g = fs.map h := by
  induction H with
  | nil => rfl
  | cons hr _ ih => simp [ih, hg _ _ hr]

theorem wfList_append {xs ys : List Obj} {m n : ℕ} :
    wfList (xs ++ ys) m n = true ↔ (wfList xs m n = true ∧ wfList ys m n = true) := by
  simp [wfList_iff]
  constructor
  · intro h
    exact ⟨fun f hf => h f (Or.inl hf), fun f hf => h f (Or.inr hf)⟩
  · rintro ⟨h1, h2⟩ f (hf | hf)
    · exact h1 f hf
    · exact h2 f hf

theorem sum_mul_entry (X : DMat) (n : ℕ) : ∀ (ms : List DMat),
    (∀ M ∈ ms, M.cols = n) → ∀ i j : ℕ,
    (ms.map (fun M => (mulM M X).entry i j)).sum =
      ∑ t ∈ Finset.range n, (ms.map (fun M => M.entry i t)).sum * X.entry t j := by
  intro ms
  induction ms with
  | nil => intro _ i j; simp
  | cons M ms ih =>
    intro h i j
    have hM : M.cols = n := h M (by simp)
    have := ih (fun M hM => h M (by simp [hM])) i j
    simp only [List.map_cons, List.sum_cons, this]
    show (mulM M X).entry i j + _ = _
    simp only [mulM, hM]
    rw [← Finset.sum_add_distrib]
    refine Finset.sum_congr rfl ?_
    intro t _
    ring

theorem mul_sum_entry (X : DMat) : ∀ (ms : List DMat), ∀ i j : ℕ,
    (ms.map (fun M => (mulM X M).entry i j)).sum =
      ∑ t ∈ Finset.range X.cols, X.entry i t * (ms.map (fun M => M.entry t j)).sum := by
  intro ms
  induction ms with
  | nil => intro i j; simp
  | cons M ms ih =>
    intro i j
    simp only [List.map_cons, List.sum_cons, ih]
    show (mulM X M).entry i j + _ = _
    simp only [mulM]
    rw [← Finset.sum_add_distrib]
    refine Finset.sum_congr rfl ?_
    intro t _
    ring

theorem entry_sum_left (fs : List Obj) (X : DMat) (n : ℕ)
    (hc : (sumVal fs).cols = n) (hcols : ∀ f ∈ fs, (val f).cols = n) (i j : ℕ) :
    (fs.map (fun f => (mulM (val f) X).entry i j)).sum = (mulM (sumVal fs) X).entry i j := by
  have h1 : fs.map (fun f => (mulM (val f) X).entry i j) =
      (fs.map val).map (fun M => (mulM M X).entry i j) := by
    simp [List.map_map]
  have h2 : ∀ M ∈ fs.map val, M.cols = n := by
    intro M hM
    obtain ⟨f, hf, rfl⟩ := List.mem_map.mp hM
    exact hcols f hf
  rw [h1, sum_mul_entry X n _ h2 i j]
  show _ = ∑ t ∈ Finset.range (sumVal fs).cols, (sumVal fs).entry i t * X.entry t j
  rw [hc]
  refine Finset.sum_congr rfl (fun t _ => ?_)
  rw [sumVal_entry, List.map_map]
  rfl

theorem entry_sum_right (gs : List Obj) (X : DMat) (i j : ℕ) :
    (gs.map (fun g => (mulM X (val g)).entry i j)).sum = (mulM X (sumVal gs)).entry i j := by
  have h1 : gs.map (fun g => (mulM X (val g)).entry i j) =
      (gs.map val).map (fun M => (mulM X M).entry i j) := by
    simp [List.map_map]
  rw [h1, mul_sum_entry X _ i j]
  show _ = ∑ t ∈ Finset.range X.cols, X.entry i t * (sumVal gs).entry t j
  refine Finset.sum_congr rfl (fun t _ => ?_)
  rw [sumVal_entry, List.map_map]
  rfl

theorem wfList_of_forall₂ {m p : ℕ} {R : Obj → Obj → Prop}
    (hR : ∀ g c, R g c → wfB c m p = true) :
    ∀ {gs xs : List Obj}, List.Forall₂ R gs xs → wfList xs m p = true := by
  intro gs xs H
  induction H with
  | nil => simp [wfList]
  | cons hr _ ih => simp [wfList, hR _ _ hr, ih]

theorem mm_ok_base {A B : Obj} {m n p : ℕ} {LA RA LB RB : DMat}
    (hA : wfB A m n = true) (hB : wfB B n p = true)
    (hfa : fview A = some (LA, RA)) (hfb : fview B = some (LB, RB))
    (hmm : matmul A B = mmBase A B) :
    ∃ C, matmul A B = .ok C ∧ wfB C m p = true ∧ val C = mulM (val A) (val B) := by
  obtain ⟨hd1, hd2, hd3⟩ := fview_dims hA hfa
  obtain ⟨he1, he2, he3⟩ := fview_dims hB hfb
  obtain ⟨_, _, hva⟩ := fview_getters hfa
  obtain ⟨_, _, hvb⟩ := fview_getters hfb
  refine ⟨.latr LA (mulM (mulM RA LB) RB), ?_, ?_, ?_⟩
  · rw [hmm, mmBase_spec hfa hfb (by rw [hd3, he1]) he2]
  · refine wfB_latr.mpr ⟨hd1, ?_, ?_⟩
    · show LA.cols = RA.rows
      exact hd2
    · show RB.cols = p
      exact he3
  · show mulM LA (mulM (mulM RA LB) RB) = _
    rw [hva, hvb, mulM_assoc RA LB RB, ← mulM_assoc]

theorem mmCols_ok (N : ℕ)
    (IH : ∀ (A B : Obj) (m n p : ℕ), sizeOf A + sizeOf B ≤ N →
      wfB A m n = true → wfB B n p = true →
      ∃ C, matmul A B = .ok C ∧ wfB C m p = true ∧ val C = mulM (val A) (val B)) :
    ∀ (fs : List Obj) (B : Obj) (m n p : ℕ),
      (∀ f ∈ fs, sizeOf f + sizeOf B ≤ N) →
      wfList fs m n = true → wfB B n p = true →
      ∃ cs, mmCols fs B = .ok cs ∧
        List.Forall₂ (fun f c => wfB c m p = true ∧ val c = mulM (val f) (val B)) fs cs := by
  intro fs
  induction fs with
  | nil => intro B m n p _ _ _; exact ⟨[], by simp [mmCols], List.Forall₂.nil⟩
  | cons f fs ihl =>
    intro B m n p hsz hwf hB
    have hwf' := wfList_iff.mp hwf
    obtain ⟨c, hc1, hc2, hc3⟩ := IH f B m n p (hsz f (by simp)) (hwf' f (by simp)) hB
    obtain ⟨cs, hcs1, hcs2⟩ := ihl B m n p (fun g hg => hsz g (by simp [hg]))
      (wfList_iff.mpr (fun g hg => hwf' g (by simp [hg]))) hB
    refine ⟨c :: cs, ?_, List.Forall₂.cons ⟨hc2, hc3⟩ hcs2⟩
    simp [mmCols, hc1, hcs1]

theorem mmOne_ok (N : ℕ)
    (IH : ∀ (A B : Obj) (m n p : ℕ), sizeOf A + sizeOf B ≤ N →
      wfB A m n = true → wfB B n p = true →
      ∃ C, matmul A B = .ok C ∧ wfB C m p = true ∧ val C = mulM (val A) (val B)) :
    ∀ (A : Obj) (gs : List Obj) (m n p : ℕ),
      (∀ g ∈ gs, sizeOf A + sizeOf g ≤ N) →
      wfB A m n = true → wfList gs n p = true →
      ∃ cs, mmOne A gs = .ok cs ∧
        List.Forall₂ (fun g c => wfB c m p = true ∧ val c = mulM (val A) (val g)) gs cs := by
  intro A gs
  induction gs with
  | nil => intro m n p _ _ _; exact ⟨[], by simp [mmOne], List.Forall₂.nil⟩
  | cons g gs ihl =>
    intro m n p hsz hA hwf
    have hwf' := wfList_iff.mp hwf
    obtain ⟨c, hc1, hc2, hc3⟩ := IH A g m n p (hsz g (by simp)) hA (hwf' g (by simp))
    obtain ⟨cs, hcs1, hcs2⟩ := ihl m n p (fun x hx => hsz x (by simp [hx])) hA
      (wfList_iff.mpr (fun x hx => hwf' x (by simp [hx])))
    refine ⟨c :: cs, ?_, List.Forall₂.cons ⟨hc2, hc3⟩ hcs2⟩
    simp [mmOne, hc1, hcs1]

theorem mmRows_ok (N : ℕ)
    (IH : ∀ (A B : Obj) (m n p : ℕ), sizeOf A + sizeOf B ≤ N →
      wfB A m n = true → wfB B n p = true →
      ∃ C, matmul A B = .ok C ∧ wfB C m p = true ∧ val C = mulM (val A) (val B)) :
    ∀ (fs gs : List Obj) (m n p : ℕ),
      (∀ f ∈ fs, ∀ g ∈ gs, sizeOf f + sizeOf g ≤ N) →
      wfList fs m n = true → wfList gs n p = true → gs ≠ [] →
      ∃ cs, mmRows fs gs = .ok cs ∧ wfList cs m p = true ∧
        (fs ≠ [] → cs ≠ []) ∧
        ∀ i j : ℕ, (cs.map (fun c => (val c).entry i j)).sum =
          (fs.map (fun f => (mulM (val f) (sumVal gs)).entry i j)).sum := by
  intro fs
  induction fs with
  | nil =>
    intro gs m n p _ _ _ _
    exact ⟨[], by simp [mmRows], by simp [wfList], fun h => absurd rfl h, by simp⟩
  | cons f fs ihl =>
    intro gs m n p hsz hwf hgs hgne
    have hwf' := wfList_iff.mp hwf
    obtain ⟨xs, hxs1, hxs2⟩ := mmOne_ok N IH f gs m n p
      (fun g hg => hsz f (by simp) g hg) (hwf' f (by simp)) hgs
    obtain ⟨ys, hys1, hys2, hys3, hys4⟩ := ihl gs m n p
      (fun a ha g hg => hsz a (by simp [ha]) g hg)
      (wfList_iff.mpr (fun a ha => hwf' a (by simp [ha]))) hgs hgne
    refine ⟨xs ++ ys, ?_, ?_, ?_, ?_⟩
    · simp [mmRows, hxs1, hys1]
    · exact wfList_append.mpr ⟨wfList_of_forall₂ (fun g c h => h.1) hxs2, hys2⟩
    · intro _
      have : xs.length = gs.length := (List.Forall₂.length_eq hxs2).symm
      intro habs
      rcases List.append_eq_nil.mp habs with ⟨h1, _⟩
      apply hgne
      rw [← List.length_eq_zero, ← this, h1]
      rfl
    · intro i j
      rw [List.map_append, List.sum_append, hys4 i j]
      have hx : (xs.map (fun c => (val c).entry i j)).sum =
          (mulM (val f) (sumVal gs)).entry i j := by
        rw [map_eq_of_forall₂ hxs2 (fun c => (val c).entry i j)
          (fun g => (mulM (val f) (val g)).entry i j) (fun g c hr => by
            show (val c).entry i j = (mulM (val f) (val g)).entry i j
            rw [hr.2])]
        exact entry_sum_right gs (val f) i j
      rw [hx]
      rfl

theorem mm_ok : ∀ (N : ℕ) (A B : Obj) (m n p : ℕ), sizeOf A + sizeOf B ≤ N →
    wfB A m n = true → wfB B n p = true →
    ∃ C, matmul A B = .ok C ∧ wfB C m p = true ∧ val C = mulM (val A) (val B) := by
  intro N
  induction N with
  | zero =>
    intro A B m n p h _ _
    exfalso
    rw [Nat.le_zero] at h
    have h1 : sizeOf A = 0 := by omega
    cases A <;> simp at h1
  | succ N ih =>
    intro A B m n p hsz hA hB
    have case_right : ∀ (A : Obj) (gs : List Obj) (m n p : ℕ),
        sizeOf A + sizeOf (Obj.sum gs) ≤ N + 1 →
        wfB A m n = true → wfB (.sum gs) n p = true →
        matmul A (.sum gs) = Except.map Obj.sum (mmOne A gs) →
        ∃ C, matmul A (.sum gs) = .ok C ∧ wfB C m p = true ∧
          val C = mulM (val A) (val (.sum gs)) := by
      intro A gs m n p hsz hA hB hdisp
      obtain ⟨hne, hlist⟩ := wfB_sum.mp hB
      have hszs : ∀ g ∈ gs, sizeOf A + sizeOf g ≤ N := by
        intro g hg
        have := List.sizeOf_lt_of_mem hg
        simp at hsz
        omega
      obtain ⟨cs, hcs1, hcs2⟩ := mmOne_ok N ih A gs m n p hszs hA hlist
      have hcswf : wfList cs m p = true := wfList_of_forall₂ (fun g c h => h.1) hcs2
      have hcsne : cs ≠ [] := by
        intro habs
        apply hne
        have hl := List.Forall₂.length_eq hcs2
        rw [habs] at hl
        exact List.length_eq_zero.mp hl
      have hCwf : wfB (.sum cs) m p = true := wfB_sum.mpr ⟨hcsne, hcswf⟩
      refine ⟨.sum cs, by rw [hdisp, hcs1]; rfl, hCwf, ?_⟩
      obtain ⟨hcr, hcc⟩ := val_dims_of_wf hCwf
      obtain ⟨har, hac⟩ := val_dims_of_wf hA
      obtain ⟨hbr, hbc⟩ := val_dims_of_wf hB
      refine DMat.ext_of _ _ ?_ ?_ ?_
      · show (val (.sum cs)).rows = (val A).rows
        rw [hcr, har]
      · show (val (.sum cs)).cols = (val (.sum gs)).cols
        rw [hcc, hbc]
      · funext i j
        show (sumVal cs).entry i j = (mulM (val A) (sumVal gs)).entry i j
        rw [sumVal_entry]
        rw [map_eq_of_forall₂ hcs2 (fun c => (val c).entry i j)
          (fun g => (mulM (val A) (val g)).entry i j) (fun g c hr => by
            show (val c).entry i j = _
            rw [hr.2])]
        exact entry_sum_right gs (val A) i j
    have case_left : ∀ (fs : List Obj) (B : Obj) (m n p : ℕ),
        sizeOf (Obj.sum fs) + sizeOf B ≤ N + 1 →
        wfB (.sum fs) m n = true → wfB B n p = true →
        matmul (.sum fs) B = Except.map Obj.sum (mmCols fs B) →
        ∃ C, matmul (.sum fs) B = .ok C ∧ wfB C m p = true ∧
          val C = mulM (val (.sum fs)) (val B) := by
      intro fs B m n p hsz hA hB hdisp
      obtain ⟨hne, hlist⟩ := wfB_sum.mp hA
      have hszs : ∀ f ∈ fs, sizeOf f + sizeOf B ≤ N := by
        intro f hf
        have := List.sizeOf_lt_of_mem hf
        simp at hsz
        omega
      obtain ⟨cs, hcs1, hcs2⟩ := mmCols_ok N ih fs B m n p hszs hlist hB
      have hcswf : wfList cs m p = true := wfList_of_forall₂ (fun g c h => h.1) hcs2
      have hcsne : cs ≠ [] := by
        intro habs
        apply hne
        have hl := List.Forall₂.length_eq hcs2
        rw [habs] at hl
        exact List.length_eq_zero.mp hl
      have hCwf : wfB (.sum cs) m p = true := wfB_sum.mpr ⟨hcsne, hcswf⟩
      refine ⟨.sum cs, by rw [hdisp, hcs1]; rfl, hCwf, ?_⟩
      obtain ⟨hcr, hcc⟩ := val_dims_of_wf hCwf
      obtain ⟨har, hac⟩ := val_dims_of_wf hA
      obtain ⟨hbr, hbc⟩ := val_dims_of_wf hB
      refine DMat.ext_of _ _ ?_ ?_ ?_
      · show (val (.sum cs)).rows = (val (.sum fs)).rows
        rw [hcr, har]
      · show (val (.sum cs)).cols = (val B).cols
        rw [hcc, hbc]
      · funext i j
        show (sumVal cs).entry i j = (mulM (sumVal fs) (val B)).entry i j
        rw [sumVal_entry]
        rw [map_eq_of_forall₂ hcs2 (fun c => (val c).entry i j)
          (fun f => (mulM (val f) (val B)).entry i j) (fun f c hr => by
            show (val c).entry i j = _
            rw [hr.2])]
        refine entry_sum_left fs (val B) n ?_ ?_ i j
        · exact (val_dims_of_wf hA).2
        · intro f hf
          exact (val_dims_of_wf (wfList_iff.mp hlist f hf)).2
    cases A with
    | arr X => simp [wfB] at hA
    | latr la ra =>
      cases B with
      | arr X => simp [wfB] at hB
      | latr lb rb => exact mm_ok_base hA hB rfl rfl (by simp [matmul])
      | llt U S => exact mm_ok_base hA hB rfl rfl (by simp [matmul])
      | sum gs => exact case_right _ gs m n p hsz hA hB (by simp [matmul])
    | llt U S =>
      cases B with
      | arr X => simp [wfB] at hB
      | latr lb rb => exact mm_ok_base hA hB rfl rfl (by simp [matmul])
      | llt U2 S2 => exact mm_ok_base hA hB rfl rfl (by simp [matmul])
      | sum gs => exact case_right _ gs m n p hsz hA hB (by simp [matmul])
    | sum fs =>
      cases B with
      | arr X => simp [wfB] at hB
      | latr lb rb => exact case_left fs _ m n p hsz hA hB (by simp [matmul])
      | llt U2 S2 => exact case_left fs _ m n p hsz hA hB (by simp [matmul])
      | sum gs =>
        obtain ⟨hneA, hlistA⟩ := wfB_sum.mp hA
        obtain ⟨hneB, hlistB⟩ := wfB_sum.mp hB
        have hszs : ∀ f ∈ fs, ∀ g ∈ gs, sizeOf f + sizeOf g ≤ N := by
          intro f hf g hg
          have h1 := List.sizeOf_lt_of_mem hf
          have h2 := List.sizeOf_lt_of_mem hg
          simp at hsz
          omega
        obtain ⟨cs, hcs1, hcs2, hcs3, hcs4⟩ := mmRows_ok N ih fs gs m n p hszs hlistA hlistB hneB
        have hcsne := hcs3 hneA
        have hCwf : wfB (.sum cs) m p = true := wfB_sum.mpr ⟨hcsne, hcs2⟩
        refine ⟨.sum cs, ?_, hCwf, ?_⟩
        · rw [show matmul (.sum fs) (.sum gs) = Except.map Obj.sum (mmRows fs gs) from
            by simp [matmul], hcs1]
          rfl
        · obtain ⟨hcr, hcc⟩ := val_dims_of_wf hCwf
          obtain ⟨har, hac⟩ := val_dims_of_wf hA
          obtain ⟨hbr, hbc⟩ := val_dims_of_wf hB
          refine DMat.ext_of _ _ ?_ ?_ ?_
          · show (val (.sum cs)).rows = (val (.sum fs)).rows
            rw [hcr, har]
          · show (val (.sum cs)).cols = (val (.sum gs)).cols
            rw [hcc, hbc]
          · funext i j
            show (sumVal cs).entry i j = (mulM (sumVal fs) (sumVal gs)).entry i j
            rw [sumVal_entry, hcs4 i j]
            refine entry_sum_left fs (sumVal gs) n ?_ ?_ i j
            · exact (val_dims_of_wf hA).2
            · intro f hf
              exact (val_dims_of_wf (wfList_iff.mp hlistA f hf)).2

/-! ### Projection lemmas for the dense-array operations -/

@[simp] theorem mulM_rows (A B : DMat) : (mulM A B).rows = A.rows := rfl

@[simp] theorem mulM_cols (A B : DMat) : (mulM A B).cols = B.cols := rfl

@[simp] theorem trM_rows (A : DMat) : (trM A).rows = A.cols := rfl

@[simp] theorem trM_cols (A : DMat) : (trM A).cols = A.rows := rfl

@[simp] theorem lltLhs_rows (U : DMat) (S : ℕ → ℚ) : (lltLhs U S).rows = U.rows := rfl

@[simp] theorem lltLhs_cols (U : DMat) (S : ℕ → ℚ) : (lltLhs U S).cols = U.cols := rfl

/-! ### Claim C4 -/

/-- Claim C4: for all compatible representations A and B — each a Factor
(`LATR`), Spectral (`LLT`) or `Sum`, over conforming dimensions — the
product `A @ B` succeeds and `(A @ B).todense()` equals
`A.todense() @ B.todense()` exactly over the rationals, across all the
dispatch cases of `matmul`. -/
theorem claim_C4 (A B : Obj) (m n p : ℕ)
    (hA : wfB A m n = true) (hB : wfB B n p = true) :
    ∃ C DA DB DC, matmul A B = .ok C ∧ todense A = .ok DA ∧ todense B = .ok DB ∧
      todense C = .ok DC ∧ DC = mulM DA DB := by
  obtain ⟨C, h1, h2, h3⟩ := mm_ok (sizeOf A + sizeOf B) A B m n p le_rfl hA hB
  exact ⟨C, val A, val B, val C, h1, todense_of_wf hA, todense_of_wf hB,
    todense_of_wf h2, by rw [h3]⟩

/-- A concrete 2-by-2 array. -/
def W1 : DMat := ⟨2, 2, fun i j => if i = j then 2 else 1⟩

/-- Another concrete 2-by-2 array. -/
def W2 : DMat := ⟨2, 2, fun i j => (i : ℚ) + (j : ℚ)⟩

theorem claim_C4_witness :
    wfB (.sum [.latr W1 W2, .llt W1 (fun _ => 3)]) 2 2 = true ∧
    wfB (.sum [.latr W2 W1]) 2 2 = true ∧
    (∃ C DA DB DC,
      matmul (.sum [.latr W1 W2, .llt W1 (fun _ => 3)]) (.sum [.latr W2 W1]) = .ok C ∧
      todense (.sum [.latr W1 W2, .llt W1 (fun _ => 3)]) = .ok DA ∧
      todense (.sum [.latr W2 W1]) = .ok DB ∧
      todense C = .ok DC ∧ DC = mulM DA DB) :=
  ⟨by decide, by decide,
    claim_C4 (.sum [.latr W1 W2, .llt W1 (fun _ => 3)]) (.sum [.latr W2 W1])
      2 2 2 (by decide) (by decide)⟩

/-! ### Claim C9 -/

theorem bindOk_iff {α β : Type} {x : Except String α} {f : α → Except String β} {b : β} :
    (x >>= f) = .ok b ↔ ∃ a, x = .ok a ∧ f a = .ok b := by
  cases x <;> simp

theorem flat_of_leaf {o : Obj} (h : isLeafB o = true) : flatB o = true := by
  cases o <;> simp_all [isLeafB, flatB]

theorem leaf_negO {o : Obj} (h : isLeafB o = true) : isLeafB (negO o) = true := by
  cases o <;> simp_all [isLeafB, negO]

theorem negList_leaves : ∀ {fs : List Obj}, fs.all isLeafB = true →
    (negList fs).all isLeafB = true := by
  intro fs
  induction fs with
  | nil => intro _; rfl
  | cons f fs ih =>
    intro h
    simp only [List.all_cons, Bool.and_eq_true] at h
    simp only [negList, List.all_cons, Bool.and_eq_true]
    exact ⟨leaf_negO h.1, ih h.2⟩

theorem factorsOf_leaves {o : Obj} (h : flatB o = true) :
    (factorsOf o).all isLeafB = true := by
  cases o <;> simp_all [flatB, factorsOf, isLeafB]

theorem flat_addPure {A B : Obj} (hA : flatB A = true) (hB : flatB B = true) :
    flatB (addPure A B) = true := by
  show (factorsOf A ++ factorsOf B).all isLeafB = true
  rw [List.all_append]
  simp [factorsOf_leaves hA, factorsOf_leaves hB]

theorem flat_subPure {A B : Obj} (hA : flatB A = true) (hB : flatB B = true) :
    flatB (subPure A B) = true := by
  show (factorsOf A ++ negList (factorsOf B)).all isLeafB = true
  rw [List.all_append]
  simp [factorsOf_leaves hA, negList_leaves (factorsOf_leaves hB)]

theorem mmBase_ok_shape {A B C : Obj} (hB : isLeafB B = true)
    (h : mmBase A B = .ok C) : ∃ L M, C = .latr L M := by
  cases B with
  | latr lb rb =>
    simp only [mmBase] at h
    obtain ⟨la, h1, h⟩ := bindOk_iff.mp h
    obtain ⟨ra, h2, h⟩ := bindOk_iff.mp h
    obtain ⟨m1, h3, h⟩ := bindOk_iff.mp h
    obtain ⟨m2, h4, h⟩ := bindOk_iff.mp h
    exact ⟨la, m2, (Except.ok.inj h).symm⟩
  | llt U S =>
    simp only [mmBase] at h
    obtain ⟨la, h1, h⟩ := bindOk_iff.mp h
    obtain ⟨ra, h2, h⟩ := bindOk_iff.mp h
    obtain ⟨m1, h3, h⟩ := bindOk_iff.mp h
    obtain ⟨m2, h4, h⟩ := bindOk_iff.mp h
    exact ⟨la, m2, (Except.ok.inj h).symm⟩
  | sum gs => simp [isLeafB] at hB
  | arr X => simp [isLeafB] at hB

theorem matmul_leaf_eq {A B : Obj} (hA : isLeafB A = true) (hB : isLeafB B = true) :
    matmul A B = mmBase A B := by
  cases A with
  | sum fs => simp [isLeafB] at hA
  | arr X => simp [isLeafB] at hA
  | latr la ra =>
    cases B with
    | sum gs => simp [isLeafB] at hB
    | arr X => simp [isLeafB] at hB
    | latr lb rb => simp [matmul]
    | llt U S => simp [matmul]
  | llt U S =>
    cases B with
    | sum gs => simp [isLeafB] at hB
    | arr X => simp [isLeafB] at hB
    | latr lb rb => simp [matmul]
    | llt U2 S2 => simp [matmul]

theorem mmOne_leaves {A : Obj} (hA : isLeafB A = true) :
    ∀ {gs : List Obj} {cs : List Obj}, gs.all isLeafB = true →
    mmOne A gs = .ok cs → cs.all isLeafB = true := by
  intro gs
  induction gs with
  | nil => intro cs _ h; rw [show mmOne A [] = .ok [] from by simp [mmOne]] at h; simp_all
  | cons g gs ih =>
    intro cs hg h
    simp only [List.all_cons, Bool.and_eq_true] at hg
    rw [show mmOne A (g :: gs) = (do
      let x ← matmul A g
      let xs ← mmOne A gs
      .ok (x :: xs)) from by simp [mmOne]] at h
    obtain ⟨x, h1, h⟩ := bindOk_iff.mp h
    obtain ⟨xs, h2, h⟩ := bindOk_iff.mp h
    obtain rfl := Except.ok.inj h
    rw [matmul_leaf_eq hA hg.1] at h1
    obtain ⟨L, M, rfl⟩ := mmBase_ok_shape hg.1 h1
    simp only [List.all_cons, Bool.and_eq_true]
    exact ⟨rfl, ih hg.2 h2⟩

theorem mmCols_leaves {B : Obj} (hB : isLeafB B = true) :
    ∀ {fs : List Obj} {cs : List Obj}, fs.all isLeafB = true →
    mmCols fs B = .ok cs → cs.all isLeafB = true := by
  intro fs
  induction fs with
  | nil => intro cs _ h; rw [show mmCols [] B = .ok [] from by simp [mmCols]] at h; simp_all
  | cons f fs ih =>
    intro cs hf h
    simp only [List.all_cons, Bool.and_eq_true] at hf
    rw [show mmCols (f :: fs) B = (do
      let x ← matmul f B
      let xs ← mmCols fs B
      .ok (x :: xs)) from by simp [mmCols]] at h
    obtain ⟨x, h1, h⟩ := bindOk_iff.mp h
    obtain ⟨xs, h2, h⟩ := bindOk_iff.mp h
    obtain rfl := Except.ok.inj h
    rw [matmul_leaf_eq hf.1 hB] at h1
    obtain ⟨L, M, rfl⟩ := mmBase_ok_shape hB h1
    simp only [List.all_cons, Bool.and_eq_true]
    exact ⟨rfl, ih hf.2 h2⟩

theorem mmRows_leaves {gs : List Obj} (hg : gs.all isLeafB = true) :
    ∀ {fs : List Obj} {cs : List Obj}, fs.all isLeafB = true →
    mmRows fs gs = .ok cs → cs.all isLeafB = true := by
  intro fs
  induction fs with
  | nil => intro cs _ h; rw [show mmRows [] gs = .ok [] from by simp [mmRows]] at h; simp_all
  | cons f fs ih =>
    intro cs hf h
    simp only [List.all_cons, Bool.and_eq_true] at hf
    rw [show mmRows (f :: fs) gs = (do
      let xs ← mmOne f gs
      let ys ← mmRows fs gs
      .ok (xs ++ ys)) from by simp [mmRows]] at h
    obtain ⟨xs, h1, h⟩ := bindOk_iff.mp h
    obtain ⟨ys, h2, h⟩ := bindOk_iff.mp h
    obtain rfl := Except.ok.inj h
    rw [List.all_append]
    simp [mmOne_leaves hf.1 hg h1, ih hf.2 h2]

theorem matmul_flat {A B C : Obj} (hA : flatB A = true) (hB : flatB B = true)
    (h : matmul A B = .ok C) : flatB C = true := by
  have leaf_case : ∀ {A B C : Obj}, isLeafB A = true → isLeafB B = true →
      matmul A B = .ok C → flatB C = true := by
    intro A B C hA hB h
    rw [matmul_leaf_eq hA hB] at h
    obtain ⟨L, M, rfl⟩ := mmBase_ok_shape hB h
    rfl
  cases A with
  | arr X => simp [flatB] at hA
  | sum fs =>
    cases B with
    | arr X => simp [flatB] at hB
    | sum gs =>
      rw [show matmul (.sum fs) (.sum gs) = Except.map Obj.sum (mmRows fs gs) from
        by simp [matmul]] at h
      cases hm : mmRows fs gs with
      | error e => rw [hm] at h; simp at h
      | ok cs =>
        rw [hm] at h
        simp only [mapOk] at h
        obtain rfl := Except.ok.inj h
        exact mmRows_leaves hB hA hm
    | latr lb rb =>
      rw [show matmul (.sum fs) (.latr lb rb) = Except.map Obj.sum (mmCols fs (.latr lb rb)) from
        by simp [matmul]] at h
      cases hm : mmCols fs (.latr lb rb) with
      | error e => rw [hm] at h; simp at h
      | ok cs =>
        rw [hm] at h
        simp only [mapOk] at h
        obtain rfl := Except.ok.inj h
        exact mmCols_leaves (show isLeafB (Obj.latr lb rb) = true from rfl) hA hm
    | llt U S =>
      rw [show matmul (.sum fs) (.llt U S) = Except.map Obj.sum (mmCols fs (.llt U S)) from
        by simp [matmul]] at h
      cases hm : mmCols fs (.llt U S) with
      | error e => rw [hm] at h; simp at h
      | ok cs =>
        rw [hm] at h
        simp only [mapOk] at h
        obtain rfl := Except.ok.inj h
        exact mmCols_leaves (show isLeafB (Obj.llt U S) = true from rfl) hA hm
  | latr la ra =>
    cases B with
    | arr X => simp [flatB] at hB
    | sum gs =>
      rw [show matmul (.latr la ra) (.sum gs) = Except.map Obj.sum (mmOne (.latr la ra) gs) from
        by simp [matmul]] at h
      cases hm : mmOne (.latr la ra) gs with
      | error e => rw [hm] at h; simp at h
      | ok cs =>
        rw [hm] at h
        simp only [mapOk] at h
        obtain rfl := Except.ok.inj h
        exact mmOne_leaves (show isLeafB (Obj.latr la ra) = true from rfl) hB hm
    | latr lb rb =>
      exact leaf_case (show isLeafB (Obj.latr la ra) = true from rfl)
        (show isLeafB (Obj.latr lb rb) = true from rfl) h
    | llt U S =>
      exact leaf_case (show isLeafB (Obj.latr la ra) = true from rfl)
        (show isLeafB (Obj.llt U S) = true from rfl) h
  | llt U S =>
    cases B with
    | arr X => simp [flatB] at hB
    | sum gs =>
      rw [show matmul (.llt U S) (.sum gs) = Except.map Obj.sum (mmOne (.llt U S) gs) from
        by simp [matmul]] at h
      cases hm : mmOne (.llt U S) gs with
      | error e => rw [hm] at h; simp at h
      | ok cs =>
        rw [hm] at h
        simp only [mapOk] at h
        obtain rfl := Except.ok.inj h
        exact mmOne_leaves (show isLeafB (Obj.llt U S) = true from rfl) hB hm
    | latr lb rb =>
      exact leaf_case (show isLeafB (Obj.llt U S) = true from rfl)
        (show isLeafB (Obj.latr lb rb) = true from rfl) h
    | llt U2 S2 =>
      exact leaf_case (show isLeafB (Obj.llt U S) = true from rfl)
        (show isLeafB (Obj.llt U2 S2) = true from rfl) h

/-- Claim C9: starting from representations built by the factory `dot`
(`LATR` or `LLT` leaves), every object produced by an arbitrary composition
of `add`, `sub` and `matmul` is flat: a `Sum` contains only `LATR`/`LLT`
leaves and never a nested `Sum`. -/
theorem claim_C9 (e : Expr) (R : Obj) (hleaves : leavesOk e = true)
    (heval : evalE e = .ok R) : flatB R = true := by
  induction e generalizing R with
  | leaf o =>
    simp only [evalE] at heval
    obtain rfl := Except.ok.inj heval
    exact flat_of_leaf hleaves
  | eadd a b iha ihb =>
    simp only [leavesOk, Bool.and_eq_true] at hleaves
    simp only [evalE] at heval
    obtain ⟨x, hx, heval⟩ := bindOk_iff.mp heval
    obtain ⟨y, hy, heval⟩ := bindOk_iff.mp heval
    obtain rfl := Except.ok.inj heval
    exact flat_addPure (iha x hleaves.1 hx) (ihb y hleaves.2 hy)
  | esub a b iha ihb =>
    simp only [leavesOk, Bool.and_eq_true] at hleaves
    simp only [evalE] at heval
    obtain ⟨x, hx, heval⟩ := bindOk_iff.mp heval
    obtain ⟨y, hy, heval⟩ := bindOk_iff.mp heval
    obtain rfl := Except.ok.inj heval
    exact flat_subPure (iha x hleaves.1 hx) (ihb y hleaves.2 hy)
  | emul a b iha ihb =>
    simp only [leavesOk, Bool.and_eq_true] at hleaves
    simp only [evalE] at heval
    obtain ⟨x, hx, heval⟩ := bindOk_iff.mp heval
    obtain ⟨y, hy, heval⟩ := bindOk_iff.mp heval
    exact matmul_flat (iha x hleaves.1 hx) (ihb y hleaves.2 hy) heval

/-- A concrete composition `(dot(W1, W2) @ dot-spectral) + dot(W2, W1)`. -/
def exprC9 : Expr :=
  .eadd (.emul (.leaf (.latr W1 W2)) (.leaf (.llt W1 (fun _ => 3)))) (.leaf (.latr W2 W1))

/-- The object `exprC9` evaluates to. -/
def resC9 : Obj :=
  .sum [.latr W1 (mulM (mulM W2 (lltLhs W1 (fun _ => 3))) (trM (lltLhs W1 (fun _ => 3)))),
    .latr W2 W1]

theorem claim_C9_witness :
    leavesOk exprC9 = true ∧ evalE exprC9 = .ok resC9 ∧ flatB resC9 = true := by
  have h2 : evalE exprC9 = .ok resC9 := by
    simp [exprC9, resC9, evalE, matmul, mmBase, getLhs, getRhs, npMatmul, addPure,
      factorsOf, W1, W2]
  exact ⟨by decide, h2, claim_C9 exprC9 resC9 (by decide) h2⟩

/-! ### Claim C2 -/

/-- A heap whose list object 0 holds the single factor `LATR(W1, W2)`. -/
def sigmaC2 : PyState := ⟨fun i => if i = 0 then [.latr W1 W2] else [], 1⟩

/-- Claim C2 (refutation of the no-mutation contract on the code):
evaluating `add(A, B)` with `A = Sum([LATR(W1, W2)])` and `B = LATR(W1, W2)`
returns a Sum aliasing the factors list of A, and the stored factors of A
list — one element before the call — holds two elements afterwards: the
`factors += ...` in `add` extends the aliased list in place. -/
theorem claim_C2_bug :
    sigmaC2.heap 0 = [.latr W1 W2] ∧
    (addPy (.sumRef 0) (.leaf (.latr W1 W2)) sigmaC2).1 = .sumRef 0 ∧
    (addPy (.sumRef 0) (.leaf (.latr W1 W2)) sigmaC2).2.heap 0 =
      [.latr W1 W2, .latr W1 W2] ∧
    ((addPy (.sumRef 0) (.leaf (.latr W1 W2)) sigmaC2).2.heap 0).length = 2 ∧
    (sigmaC2.heap 0).length = 1 :=
  ⟨rfl, rfl, rfl, rfl, rfl⟩

/-! ### Claim C3 -/

/-- A 1-by-1 factor representation. -/
def xC3A : Obj := .latr ⟨1, 1, fun _ _ => 1⟩ ⟨1, 1, fun _ _ => 1⟩

/-- A 2-by-2 factor representation, shape-incompatible with `xC3A`. -/
def xC3B : Obj := .latr ⟨2, 2, fun _ _ => 1⟩ ⟨2, 2, fun _ _ => 1⟩

/-- Claim C3 (counterexample): with shape-incompatible operands — a 1-by-1
and a 2-by-2 factor representation — `add` raises no dimension error at
all: it silently returns the concatenated Sum, and the mismatch surfaces
only later, e.g. when `todense` on the result fails inside the numpy
broadcast.  So incompatibility is not detected before (or during) the
dispatch of `add`, contradicting the claim. -/
theorem claim_C3_counterexample :
    wfB xC3A 1 1 = true ∧ wfB xC3B 2 2 = true ∧
    addPure xC3A xC3B = .sum [xC3A, xC3B] ∧
    todense (addPure xC3A xC3B) = .error ("operands could not be broadcast together") := by
  refine ⟨by decide, by decide, rfl, ?_⟩
  simp [addPure, factorsOf, xC3A, xC3B, todense, todenseList, npMatmul, npSumList, mulM]

/-- Claim C3 (amended): the code performs no shape check before dispatch.
`add` and `sub` always succeed, returning the concatenated Sum whatever the
operand shapes; `matmul` of two factor representations surfaces an
inner-dimension mismatch only from the numpy products inside its dispatch
branch, raising the numpy generic dimension error, which does not name the
operand pair. -/
theorem claim_C3_amended :
    (∀ A B : Obj, addPure A B = .sum (factorsOf A ++ factorsOf B)) ∧
    (∀ A B : Obj, subPure A B = .sum (factorsOf A ++ negList (factorsOf B))) ∧
    (∀ l1 r1 l2 r2 : DMat, matmul (.latr l1 r1) (.latr l2 r2) =
      if r1.cols = l2.rows ∧ l2.cols = r2.rows
      then .ok (.latr l1 (mulM (mulM r1 l2) r2))
      else .error ("matmul: input operand has a mismatch in its core dimension")) := by
  refine ⟨fun A B => rfl, fun A B => rfl, fun l1 r1 l2 r2 => ?_⟩
  by_cases h1 : r1.cols = l2.rows
  · by_cases h2 : l2.cols = r2.rows
    · simp [matmul, mmBase, getLhs, getRhs, npMatmul, h1, h2]
    · simp [matmul, mmBase, getLhs, getRhs, npMatmul, h1, h2]
  · simp [matmul, mmBase, getLhs, getRhs, npMatmul, h1]

/-! ### Claim C7 -/

/-- Claim C7: for a factor representation `dot(L, R)` and conformable
operands `a` and `b`, `quadratic(a, b)` — computed as
`(a @ lhs) @ (rhs @ b)` — equals `a @ todense() @ b`. -/
theorem claim_C7 (L R a b : DMat) (h1 : a.cols = L.rows) (h2 : L.cols = R.rows)
    (h3 : R.cols = b.rows) :
    ∃ Q D, quadO (dotLATR L R) a b = .ok Q ∧ todense (dotLATR L R) = .ok D ∧
      Q = mulM (mulM a D) b := by
  refine ⟨mulM (mulM a L) (mulM R b), mulM L R, ?_, ?_, ?_⟩
  · simp [dotLATR, quadO, npMatmul, h1, h2, h3]
  · simp [dotLATR, todense, npMatmul, h2]
  · rw [mulM_assoc a L (mulM R b), ← mulM_assoc L R b, mulM_assoc a (mulM L R) b]

/-- The 2-by-3 left factor of the concrete scenario. -/
def L7 : DMat := ⟨2, 3, fun i j => ((i * 3 + j : ℕ) : ℚ)⟩

/-- The 3-by-2 right factor of the concrete scenario. -/
def R7 : DMat := ⟨3, 2, fun i j => ((i + j : ℕ) : ℚ)⟩

/-- The length-2 row vector `v`. -/
def v7 : DMat := ⟨1, 2, fun _ j => ((j + 1 : ℕ) : ℚ)⟩

/-- The length-2 column vector `w`. -/
def w7 : DMat := ⟨2, 1, fun i _ => ((i + 2 : ℕ) : ℚ)⟩

theorem claim_C7_witness :
    (v7.cols = L7.rows ∧ L7.cols = R7.rows ∧ R7.cols = w7.rows) ∧
    (∃ Q D, quadO (dotLATR L7 R7) v7 w7 = .ok Q ∧
      todense (dotLATR L7 R7) = .ok D ∧ Q = mulM (mulM v7 D) w7) :=
  ⟨⟨rfl, rfl, rfl⟩, claim_C7 L7 R7 v7 w7 rfl rfl rfl⟩

/-! ### Claim C8 -/

/-- Claim C8: for a Spectral representation whose stored eigenvalues are all
nonzero, `pinv().pinv()` keeps the same eigenvector matrix `U` and exactly
reproduces the stored eigenvalues (only the stored spectrum takes part, so
components dropped at construction time are not involved). -/
theorem claim_C8 (U : DMat) (S : ℕ → ℚ) (h : ∀ j, j < U.cols → S j ≠ 0) :
    ∃ L1, pinvO (.llt U S) = .ok L1 ∧
      ∃ U2 S2, (do
        let L1x ← pinvO (.llt U S)
        pinvO L1x) = .ok (Obj.llt U2 S2) ∧ U2 = U ∧ ∀ j, S2 j = S j := by
  refine ⟨.llt U (fun j => 1 / S j), rfl, U, fun j => 1 / (1 / S j), rfl, rfl, ?_⟩
  intro j
  exact one_div_one_div (S j)

/-- The 2-by-2 identity as eigenvector matrix. -/
def U8 : DMat := ⟨2, 2, fun i j => if i = j then 1 else 0⟩

/-- A concrete nonzero spectrum. -/
def S8 : ℕ → ℚ := fun j => if j = 0 then 3 else 5

theorem claim_C8_witness :
    (∀ j, j < U8.cols → S8 j ≠ 0) ∧
    (∃ L1, pinvO (.llt U8 S8) = .ok L1 ∧
      ∃ U2 S2, (do
        let L1x ← pinvO (.llt U8 S8)
        pinvO L1x) = .ok (Obj.llt U2 S2) ∧ U2 = U8 ∧ ∀ j, S2 j = S8 j) :=
  ⟨by decide, claim_C8 U8 S8 (by decide)⟩

/-! ### Claim C10 -/

/-- Claim C10: when `LLT.__init__` receives a pre-computed `(U, S)` tuple —
the path taken internally by `pinv` and `__pow__` — the `rcond` and `mode`
parameters are silently ignored: no thresholding or clamping touches `S`,
and an invalid mode string raises nothing in this branch. -/
theorem claim_C10 :
    (∀ (U : DMat) (S : ℕ → ℚ) (rcond : ℚ) (mode : String),
      lltInit (.pair U S) rcond mode = .ok (.llt U S)) ∧
    (∀ (U : DMat) (S : ℕ → ℚ),
      pinvO (.llt U S) = .ok (.llt U (fun j => 1 / S j))) ∧
    (∀ (U : DMat) (S : ℕ → ℚ) (e : ℤ),
      powO (.llt U S) e = .ok (.llt U (fun j => S j ^ e))) :=
  ⟨fun _ _ _ _ => rfl, fun _ _ => rfl, fun _ _ _ => rfl⟩

/-! ### Claim C6 -/

/-- Claim C6: constructing `LLT` from a dense array (with a nonempty
spectrum) under any mode other than `truncate` and `clamp` fails
immediately with the `RuntimeError` whose message names the invalid mode;
there is no silent fallback. -/
theorem claim_C6 (U : DMat) (S : ℕ → ℚ) (rcond : ℚ) (mode : String)
    (h1 : mode ≠ "truncate") (h2 : mode ≠ "clamp") (h3 : 0 < U.cols) :
    lltInit (.dense U S) rcond mode =
      .error ("Unknown spectral approximation mode " ++ mode ++ ".") := by
  have h0 : U.cols ≠ 0 := by omega
  simp [lltInit, h0, h1, h2]

theorem claim_C6_witness :
    (("bogus" : String) ≠ "truncate" ∧ ("bogus" : String) ≠ "clamp" ∧ 0 < U8.cols) ∧
    lltInit (.dense U8 S8) (1 / 2) "bogus" =
      .error ("Unknown spectral approximation mode " ++ "bogus" ++ ".") :=
  ⟨⟨by decide, by decide, by decide⟩, claim_C6 U8 S8 (1 / 2) "bogus" (by decide) (by decide) (by decide)⟩

/-! ### Claim C5 -/

theorem filter_length_mono {α : Type} (l : List α) (p q : α → Bool)
    (h : ∀ a ∈ l, p a = true → q a = true) :
    (l.filter p).length ≤ (l.filter q).length := by
  induction l with
  | nil => simp
  | cons a l ih =>
    have ih2 := ih (fun x hx hp => h x (by simp [hx]) hp)
    by_cases hp : p a = true
    · rw [List.filter_cons_of_pos hp, List.filter_cons_of_pos (h a (by simp) hp)]
      simpa using ih2
    · rw [List.filter_cons_of_neg hp]
      by_cases hq : q a = true
      · rw [List.filter_cons_of_pos hq]
        calc (l.filter p).length ≤ (l.filter q).length := ih2
          _ ≤ (a :: l.filter q).length := by simp
      · rw [List.filter_cons_of_neg hq]
        exact ih2

/-- Claim C5: with `mode="truncate"` and a nonempty spectrum of nonnegative
maximum (as any numpy singular value spectrum has), every retained
eigenvalue is at least `max(S) * rcond`, and the number of retained
components is monotonically non-increasing in `rcond`. -/
theorem claim_C5 (U : DMat) (S : ℕ → ℚ) (r1 r2 : ℚ)
    (hk : 0 < U.cols) (hmax : 0 ≤ listMax (svals S U.cols)) (hr : r1 ≤ r2) :
    ∃ U1 S1 U2 S2,
      lltInit (.dense U S) r1 ("truncate") = .ok (.llt U1 S1) ∧
      lltInit (.dense U S) r2 ("truncate") = .ok (.llt U2 S2) ∧
      (∀ j, j < U1.cols → listMax (svals S U.cols) * r1 ≤ S1 j) ∧
      U2.cols ≤ U1.cols := by
  have h0 : U.cols ≠ 0 := by omega
  have hinit : ∀ r : ℚ, lltInit (.dense U S) r ("truncate") =
      .ok (.llt
        ⟨U.rows,
          ((List.range U.cols).filter (fun j => decide (listMax (svals S U.cols) * r ≤ S j))).length,
          fun i j => U.entry i
            (((List.range U.cols).filter
              (fun j => decide (listMax (svals S U.cols) * r ≤ S j))).getD j 0)⟩
        (fun j => S (((List.range U.cols).filter
          (fun j => decide (listMax (svals S U.cols) * r ≤ S j))).getD j 0))) := by
    intro r
    simp [lltInit, h0]
  refine ⟨_, _, _, _, hinit r1, hinit r2, ?_, ?_⟩
  · intro j hj
    have hjlen : j < ((List.range U.cols).filter
        (fun j => decide (listMax (svals S U.cols) * r1 ≤ S j))).length := hj
    show listMax (svals S U.cols) * r1 ≤
      S (((List.range U.cols).filter
        (fun j => decide (listMax (svals S U.cols) * r1 ≤ S j))).getD j 0)
    rw [List.getD_eq_getElem _ 0 hjlen]
    have hmem := List.getElem_mem hjlen
    obtain ⟨_, hdec⟩ := List.mem_filter.mp hmem
    exact of_decide_eq_true hdec
  · show ((List.range U.cols).filter
        (fun j => decide (listMax (svals S U.cols) * r2 ≤ S j))).length ≤
      ((List.range U.cols).filter
        (fun j => decide (listMax (svals S U.cols) * r1 ≤ S j))).length
    refine filter_length_mono _ _ _ ?_
    intro a _ hp
    have h2 := of_decide_eq_true hp
    have h1 : listMax (svals S U.cols) * r1 ≤ listMax (svals S U.cols) * r2 :=
      mul_le_mul_of_nonneg_left hr hmax
    exact decide_eq_true (le_trans h1 h2)

theorem claim_C5_witness :
    (0 < U8.cols ∧ 0 ≤ listMax (svals S8 U8.cols) ∧ (0 : ℚ) ≤ 1) ∧
    (∃ U1 S1 U2 S2,
      lltInit (.dense U8 S8) 0 "truncate" = .ok (.llt U1 S1) ∧
      lltInit (.dense U8 S8) 1 "truncate" = .ok (.llt U2 S2) ∧
      (∀ j, j < U1.cols → listMax (svals S8 U8.cols) * 0 ≤ S1 j) ∧
      U2.cols ≤ U1.cols) :=
  ⟨⟨by decide, by decide, by decide⟩,
    claim_C5 U8 S8 0 1 (by decide) (by decide) (by decide)⟩

/-! ### Claim C1 -/

theorem truncate_rcond0 (U : DMat) (S : ℕ → ℚ) (hk : 0 < U.cols)
    (hS : ∀ j, j < U.cols → 0 ≤ S j) :
    ∃ U' S', lltInit (.dense U S) 0 "truncate" = .ok (.llt U' S') ∧
      U'.rows = U.rows ∧ U'.cols = U.cols ∧
      (∀ i j, j < U.cols → U'.entry i j = U.entry i j) ∧
      (∀ j, j < U.cols → S' j = S j) := by
  have h0 : U.cols ≠ 0 := by omega
  have hmask : (List.range U.cols).filter
      (fun j => decide (listMax (svals S U.cols) * 0 ≤ S j)) = List.range U.cols := by
    simp only [mul_zero]
    refine List.filter_eq_self.mpr ?_
    intro a ha
    exact decide_eq_true (hS a (List.mem_range.mp ha))
  have hget : ∀ j, j < U.cols → ((List.range U.cols).getD j 0) = j := by
    intro j hj
    have hlen : j < (List.range U.cols).length := by simpa using hj
    rw [List.getD_eq_getElem _ 0 hlen]
    simp
  refine ⟨⟨U.rows, ((List.range U.cols).filter
      (fun j => decide (listMax (svals S U.cols) * 0 ≤ S j))).length,
      fun i j => U.entry i (((List.range U.cols).filter
        (fun j => decide (listMax (svals S U.cols) * 0 ≤ S j))).getD j 0)⟩,
    fun j => S (((List.range U.cols).filter
      (fun j => decide (listMax (svals S U.cols) * 0 ≤ S j))).getD j 0),
    by simp [lltInit, h0], rfl, ?_, ?_, ?_⟩
  · show ((List.range U.cols).filter
      (fun j => decide (listMax (svals S U.cols) * 0 ≤ S j))).length = U.cols
    rw [hmask]
    simp
  · intro i j hj
    show U.entry i (((List.range U.cols).filter
      (fun j => decide (listMax (svals S U.cols) * 0 ≤ S j))).getD j 0) = U.entry i j
    rw [hmask, hget j hj]
  · intro j hj
    show S (((List.range U.cols).filter
      (fun j => decide (listMax (svals S U.cols) * 0 ≤ S j))).getD j 0) = S j
    rw [hmask, hget j hj]

/-- What `dot(X)` with `rcond=0` actually builds from a matrix with singular
value decomposition `X = U · diag S · Vᵀ` (orthonormal `U`, `V`, nonnegative
spectrum): the dense form of the result is the Gram matrix `X @ X.T` — for
symmetric `X` that is `X²`, not `X` — and its trace is the sum of the
squared singular values. -/
theorem dot_rcond0_gram (U V X : DMat) (S : ℕ → ℚ) (k : ℕ)
    (hUc : U.cols = k) (hVc : V.cols = k) (hVr : V.rows = U.rows)
    (hXc : X.cols = U.rows)
    (hk : 0 < k) (hS : ∀ j, j < k → 0 ≤ S j)
    (hX : ∀ i, i < U.rows → ∀ j, j < U.rows → X.entry i j =
      ∑ t ∈ Finset.range k, U.entry i t * S t * V.entry j t)
    (hV : ∀ t, t < k → ∀ u, u < k →
      (∑ p ∈ Finset.range V.rows, V.entry p t * V.entry p u) = if t = u then 1 else 0)
    (hU : ∀ t, t < k → ∀ u, u < k →
      (∑ p ∈ Finset.range U.rows, U.entry p t * U.entry p u) = if t = u then 1 else 0) :
    ∃ L D, dotLLT U S 0 "truncate" = .ok L ∧ todense L = .ok D ∧
      D.rows = U.rows ∧ D.cols = U.rows ∧
      (∀ i, i < U.rows → ∀ j, j < U.rows → D.entry i j = (mulM X (trM X)).entry i j) ∧
      traceO L = .ok (∑ t ∈ Finset.range k, S t ^ 2) := by
  obtain ⟨U', S', h1, hr, hc, hUe, hSe⟩ := truncate_rcond0 U S (by omega)
    (fun j hj => hS j (by omega))
  have hcck : U'.cols = k := by rw [hc, hUc]
  refine ⟨.llt U' S', mulM (lltLhs U' S') (trM (lltLhs U' S')), h1, ?_, ?_, ?_, ?_, ?_⟩
  · show todense (.llt U' S') = _
    simp [todense, npMatmul]
  · show U'.rows = U.rows
    exact hr
  · show U'.rows = U.rows
    exact hr
  · intro i hi j hj
    have hDe : (mulM (lltLhs U' S') (trM (lltLhs U' S'))).entry i j =
        ∑ t ∈ Finset.range k, (U.entry i t * S t) * (U.entry j t * S t) := by
      show (∑ t ∈ Finset.range (lltLhs U' S').cols,
        (U'.entry i t * S' t) * (U'.entry j t * S' t)) = _
      rw [show (lltLhs U' S').cols = U'.cols from rfl, hcck]
      refine Finset.sum_congr rfl (fun t ht => ?_)
      have htc : t < U.cols := by rw [hUc]; exact Finset.mem_range.mp ht
      rw [hUe i t htc, hUe j t htc, hSe t htc]
    have hgram : (mulM X (trM X)).entry i j =
        ∑ t ∈ Finset.range k, (U.entry i t * S t) * (U.entry j t * S t) := by
      show (∑ p ∈ Finset.range X.cols, X.entry i p * X.entry j p) = _
      rw [hXc]
      calc ∑ p ∈ Finset.range U.rows, X.entry i p * X.entry j p
          = ∑ p ∈ Finset.range U.rows,
              ((∑ t ∈ Finset.range k, U.entry i t * S t * V.entry p t) *
               (∑ u ∈ Finset.range k, U.entry j u * S u * V.entry p u)) := by
            refine Finset.sum_congr rfl (fun p hp => ?_)
            rw [hX i hi p (Finset.mem_range.mp hp), hX j hj p (Finset.mem_range.mp hp)]
        _ = ∑ p ∈ Finset.range U.rows, ∑ t ∈ Finset.range k, ∑ u ∈ Finset.range k,
              (U.entry i t * S t * (U.entry j u * S u)) * (V.entry p t * V.entry p u) := by
            refine Finset.sum_congr rfl (fun p _ => ?_)
            rw [Finset.sum_mul_sum]
            exact Finset.sum_congr rfl
              (fun t _ => Finset.sum_congr rfl (fun u _ => by ring))
        _ = ∑ t ∈ Finset.range k, ∑ u ∈ Finset.range k,
              (U.entry i t * S t * (U.entry j u * S u)) *
                (∑ p ∈ Finset.range U.rows, V.entry p t * V.entry p u) := by
            rw [Finset.sum_comm]
            refine Finset.sum_congr rfl (fun t _ => ?_)
            rw [Finset.sum_comm]
            refine Finset.sum_congr rfl (fun u _ => ?_)
            rw [Finset.mul_sum]
        _ = ∑ t ∈ Finset.range k, ∑ u ∈ Finset.range k,
              (U.entry i t * S t * (U.entry j u * S u)) * (if t = u then 1 else 0) := by
            refine Finset.sum_congr rfl
              (fun t ht => Finset.sum_congr rfl (fun u hu => ?_))
            rw [← hVr, hV t (Finset.mem_range.mp ht) u (Finset.mem_range.mp hu)]
        _ = ∑ t ∈ Finset.range k, (U.entry i t * S t) * (U.entry j t * S t) := by
            refine Finset.sum_congr rfl (fun t ht => ?_)
            simp only [mul_ite, mul_one, mul_zero]
            rw [Finset.sum_ite_eq (Finset.range k) t
              (fun u => U.entry i t * S t * (U.entry j u * S u)), if_pos ht]
    rw [hDe, hgram]
  · have htr : traceO (.llt U' S') = .ok (∑ i ∈ Finset.range U'.rows,
        ∑ t ∈ Finset.range U'.cols, (U'.entry i t * S' t) ^ 2) := by
      simp [traceO, diagO, vsum]
    rw [htr]
    refine congrArg Except.ok ?_
    rw [hr, hcck]
    rw [Finset.sum_congr rfl (fun i _ => Finset.sum_congr rfl (fun t ht => by
      have htc : t < U.cols := by rw [hUc]; exact Finset.mem_range.mp ht
      rw [hUe i t htc, hSe t htc]))]
    rw [Finset.sum_comm]
    refine Finset.sum_congr rfl (fun t ht => ?_)
    have htk := Finset.mem_range.mp ht
    have hdiag := hU t htk t htk
    rw [if_pos rfl] at hdiag
    calc ∑ i ∈ Finset.range U.rows, (U.entry i t * S t) ^ 2
        = ∑ i ∈ Finset.range U.rows, (U.entry i t * U.entry i t) * S t ^ 2 := by
          refine Finset.sum_congr rfl (fun i _ => by ring)
      _ = (∑ i ∈ Finset.range U.rows, U.entry i t * U.entry i t) * S t ^ 2 := by
          rw [Finset.sum_mul]
      _ = 1 * S t ^ 2 := by rw [hdiag]
      _ = S t ^ 2 := one_mul _

/-- The 4-by-4 symmetric positive-definite matrix `diag(2, 1, 1, 1)`. -/
def X1c : DMat := ⟨4, 4, fun i j => if i = j then (if i = 0 then 2 else 1) else 0⟩

/-- Its eigenvector matrix: the 4-by-4 identity. -/
def U1c : DMat := ⟨4, 4, fun i j => if i = j then 1 else 0⟩

/-- Its spectrum `(2, 1, 1, 1)`, already in descending order. -/
def S1c : ℕ → ℚ := fun j => if j = 0 then 2 else 1

/-- Claim C1 (counterexample): `X1c = diag(2,1,1,1)` is symmetric positive
definite with the verified eigen-decomposition `X1c = U1c · diag S1c ·
U1cᵀ`; yet `dot(X1c)` with `rcond=0` — i.e. `LLT(X1c, rcond=0,
mode="truncate")` — materializes to a matrix whose `(0,0)` entry is `4`,
not the `2` of `X1c`, and its `trace()` is `7` while `sum(diag(X1c)) = 5`: the
built representation is `X1c @ X1c.T = X1c²`, not `X1c`. -/
theorem claim_C1_counterexample :
    (∀ i, i < 4 → ∀ j, j < 4 → X1c.entry i j =
      ∑ t ∈ Finset.range 4, U1c.entry i t * S1c t * U1c.entry j t) ∧
    (∀ t, t < 4 → ∀ u, u < 4 →
      (∑ p ∈ Finset.range 4, U1c.entry p t * U1c.entry p u) = if t = u then 1 else 0) ∧
    (∀ j, j < 4 → 0 ≤ S1c j) ∧
    (∀ j, j < 3 → S1c (j + 1) ≤ S1c j) ∧
    (∑ i ∈ Finset.range 4, X1c.entry i i = 5) ∧
    (∃ L D, dotLLT U1c S1c 0 "truncate" = .ok L ∧ todense L = .ok D ∧
      D.entry 0 0 = 4 ∧ X1c.entry 0 0 = 2 ∧ (4 : ℚ) ≠ 2 ∧
      traceO L = .ok 7 ∧ (7 : ℚ) ≠ 5) := by
  have hX : ∀ i, i < 4 → ∀ j, j < 4 → X1c.entry i j =
      ∑ t ∈ Finset.range 4, U1c.entry i t * S1c t * U1c.entry j t := by
    intro i hi j hj
    interval_cases i <;> interval_cases j <;>
      norm_num [X1c, U1c, S1c, Finset.sum_range_succ]
  have hO : ∀ t, t < 4 → ∀ u, u < 4 →
      (∑ p ∈ Finset.range 4, U1c.entry p t * U1c.entry p u) = if t = u then 1 else 0 := by
    intro t ht u hu
    interval_cases t <;> interval_cases u <;>
      norm_num [U1c, Finset.sum_range_succ]
  refine ⟨hX, hO, by decide, by decide, ?_, ?_⟩
  · norm_num [X1c, Finset.sum_range_succ]
  · obtain ⟨L, D, hdot, htd, hDr, hDc, hDe, htr⟩ := dot_rcond0_gram U1c U1c X1c S1c 4
      rfl rfl rfl rfl (by decide) (by decide) hX hO hO
    refine ⟨L, D, hdot, htd, ?_, by decide, by decide, ?_, by decide⟩
    · rw [hDe 0 (by decide) 0 (by decide)]
      show (∑ t ∈ Finset.range X1c.cols, X1c.entry 0 t * X1c.entry 0 t) = 4
      norm_num [X1c, Finset.sum_range_succ]
    · rw [htr]
      refine congrArg Except.ok ?_
      norm_num [S1c, Finset.sum_range_succ]

/-- Claim C1 (amended): for a dense matrix `X` with singular value
decomposition `X = U · diag S · Vᵀ` (orthonormal `U`, `V`, nonnegative
spectrum — for a symmetric positive-definite `X` this is its
eigen-decomposition), the Spectral representation built by `dot(X)` with
`rcond=0` represents the Gram matrix `X @ X.T` (which is `X²`, not `X`,
for symmetric `X`): `.todense()` reproduces `X @ X.T` entrywise on the
square range, and `.trace()` equals the sum of the squared singular values
`= trace(X @ X.T)`. -/
theorem claim_C1_amended (U V X : DMat) (S : ℕ → ℚ) (k : ℕ)
    (hUc : U.cols = k) (hVc : V.cols = k) (hVr : V.rows = U.rows)
    (hXc : X.cols = U.rows)
    (hk : 0 < k) (hS : ∀ j, j < k → 0 ≤ S j)
    (hX : ∀ i, i < U.rows → ∀ j, j < U.rows → X.entry i j =
      ∑ t ∈ Finset.range k, U.entry i t * S t * V.entry j t)
    (hV : ∀ t, t < k → ∀ u, u < k →
      (∑ p ∈ Finset.range V.rows, V.entry p t * V.entry p u) = if t = u then 1 else 0)
    (hU : ∀ t, t < k → ∀ u, u < k →
      (∑ p ∈ Finset.range U.rows, U.entry p t * U.entry p u) = if t = u then 1 else 0) :
    ∃ L D, dotLLT U S 0 "truncate" = .ok L ∧ todense L = .ok D ∧
      D.rows = U.rows ∧ D.cols = U.rows ∧
      (∀ i, i < U.rows → ∀ j, j < U.rows → D.entry i j = (mulM X (trM X)).entry i j) ∧
      traceO L = .ok (∑ t ∈ Finset.range k, S t ^ 2) :=
  dot_rcond0_gram U V X S k hUc hVc hVr hXc hk hS hX hV hU

theorem claim_C1_amended_witness :
    (U1c.cols = 4 ∧ U1c.cols = 4 ∧ U1c.rows = U1c.rows ∧ X1c.cols = U1c.rows ∧
      0 < 4 ∧ (∀ j, j < 4 → 0 ≤ S1c j) ∧
      (∀ i, i < U1c.rows → ∀ j, j < U1c.rows → X1c.entry i j =
        ∑ t ∈ Finset.range 4, U1c.entry i t * S1c t * U1c.entry j t) ∧
      (∀ t, t < 4 → ∀ u, u < 4 →
        (∑ p ∈ Finset.range U1c.rows, U1c.entry p t * U1c.entry p u) =
          if t = u then 1 else 0)) ∧
    (∃ L D, dotLLT U1c S1c 0 "truncate" = .ok L ∧ todense L = .ok D ∧
      D.rows = U1c.rows ∧ D.cols = U1c.rows ∧
      (∀ i, i < U1c.rows → ∀ j, j < U1c.rows →
        D.entry i j = (mulM X1c (trM X1c)).entry i j) ∧
      traceO L = .ok (∑ t ∈ Finset.range 4, S1c t ^ 2)) := by
  have hX : ∀ i, i < U1c.rows → ∀ j, j < U1c.rows → X1c.entry i j =
      ∑ t ∈ Finset.range 4, U1c.entry i t * S1c t * U1c.entry j t := by
    intro i hi j hj
    replace hi : i < 4 := hi
    replace hj : j < 4 := hj
    interval_cases i <;> interval_cases j <;>
      norm_num [X1c, U1c, S1c, Finset.sum_range_succ]
  have hO : ∀ t, t < 4 → ∀ u, u < 4 →
      (∑ p ∈ Finset.range U1c.rows, U1c.entry p t * U1c.entry p u) =
        if t = u then 1 else 0 := by
    intro t ht u hu
    interval_cases t <;> interval_cases u <;>
      norm_num [U1c, Finset.sum_range_succ]
  exact ⟨⟨rfl, rfl, rfl, rfl, by decide, by decide, hX, hO⟩,
    claim_C1_amended U1c U1c X1c S1c 4 rfl rfl rfl rfl (by decide) (by decide) hX hO hO⟩

end LowRank
